import Mathlib

/-!
# Verification of the 0x-rs chain tip watcher and order state batcher

Shallow embedding of the reorg-handling block watcher
(`src/block-watcher/src/lib.rs`, `src/block-watcher/src/producer.rs`) and the
order state batcher (`src/order-watcher/src/ethereum/batcher.rs`).

Hashes, order contents, waiter handles and order states are opaque values in
the Rust code (compared only for equality), so they are modelled as `Nat`.
Block numbers are `u64` far below overflow in practice; they are modelled as
`Nat`.
-/

/-! ## Block watcher: data model (`src/block-watcher/src/lib.rs`) -/

/-- A block header as the watcher uses it: number, own hash, parent hash.
In the Rust `BlockHeader` the number and hash are `Option`s, but every header
reaching `send_with_reorgs` has been checked (`Error::NumberMissing` /
`Error::HashMissing` in `fetch_loop` and `fetch_header`), so the fields are
mandatory here and the `.unwrap()` calls are field projections. -/
structure Header where
  number : Nat
  hash : Nat
  parent_hash : Nat
deriving DecidableEq

/-- The watcher's `Error` enum (lines 60-81). `Web3Error` and `Timeout`
carry opaque payloads in Rust; the payload is irrelevant to the claims. -/
inductive Err where
  | Web3Error
  | Timeout
  | EndOfStream
  | NotFound
  | NumberMissing
  | HashMissing
  | ReorgOverflow
  | InsaneParentHash
  | InsaneNumber
deriving DecidableEq

/-- `Reorgable<BlockHeader>` (lines 46-58): the event type broadcast by the
watcher. `Event(header)` is a header acceptance, `Reorg { block_height }` a
reorg notification. -/
inductive Event where
  | HeaderAccepted (h : Header)
  | ReorgDetected (block_height : Nat)
deriving DecidableEq

/-- `MAX_TRIES` (line 38): maximum number of connection retries. -/
def MAX_TRIES : Nat := 10

/-- `MAX_REORG` (line 44): maximum acceptable re-org size. -/
def MAX_REORG : Nat := 10

/-- The `fetch_header(eth, block_id)` RPC, abstracted: a map from a requested
hash to a header or an error. (The watcher requests ancestors by hash only
inside `send_with_reorgs`.) Nothing is assumed about the responses. -/
abbrev Fetch := Nat → Except Err Header

/-! ## Block watcher: the reorg resolution loop -/

/-- The pending-chain construction loop of `send_with_reorgs` (lines 210-233).

The Rust queue is a `Vec` with `latest` first; parents are pushed at the back
and `queue.last()` is inspected, so here the list is kept reversed
(oldest first): the inspected end is `tip`, the rest of the queue is `rest`,
and pushing a parent conses it in front.  The Rust loop begins with
`if queue.len() > MAX_REORG { return Err(Error::ReorgOverflow); }`; `fuel`
carries `MAX_REORG + 1 - queue.len()` (the top-level call starts at
`queue = vec![latest]`, `fuel = MAX_REORG`), so that check is `fuel = 0` and
the recursion is structural.

Per iteration: if `tip` connects to `last` by number and parent hash, stop,
returning the (possibly rewound) `last`, the queue oldest-first, and the
rewind count; if the number matches but the parent hash does not, rewind
`last` to its own fetched parent and count the rewind; in either non-stop
case fetch `tip`'s parent and push it. -/
def buildQueue (fetch : Fetch) : Nat → Header → Header → List Header → Nat →
    Except Err (Header × List Header × Nat)
  | 0, _, _, _, _ => .error .ReorgOverflow
  | fuel + 1, last, tip, rest, rewound =>
    if tip.number = last.number + 1 ∧ tip.parent_hash = last.hash then
      .ok (last, tip :: rest, rewound)
    else if tip.number = last.number + 1 then
      match fetch last.parent_hash with
      | .error e => .error e
      | .ok last' =>
        match fetch tip.parent_hash with
        | .error e => .error e
        | .ok parent => buildQueue fetch fuel last' parent (tip :: rest) (rewound + 1)
    else
      match fetch tip.parent_hash with
      | .error e => .error e
      | .ok parent => buildQueue fetch fuel last parent (tip :: rest) rewound

/-- The emission loop of `send_with_reorgs` (lines 247-262): replay the
pending chain oldest-to-newest, re-checking before each send that the header
extends the previously accepted one by exactly one block number and by parent
hash, advancing `last` after each send.  Returns the headers actually sent
(in send order, as events) and either the final `last` or the sanity-check
error; on an error the headers sent before it remain sent. -/
def replay (last : Header) : List Header → List Event × Except Err Header
  | [] => ([], .ok last)
  | h :: rest =>
    if h.number ≠ last.number + 1 then ([], .error .InsaneNumber)
    else if h.parent_hash ≠ last.hash then ([], .error .InsaneParentHash)
    else
      let out := replay h rest
      (.HeaderAccepted h :: out.1, out.2)

/-- `send_with_reorgs` (lines 201-265): build the pending chain; if any
rewind happened, send one `Reorg { block_height = last.number + 1 }` for the
rewound `last`; then replay the pending chain as header events.  Returns the
events sent, and the final accepted header or the loop-ending error. -/
def send_with_reorgs (fetch : Fetch) (last latest : Header) :
    List Event × Except Err Header :=
  match buildQueue fetch MAX_REORG last latest [] 0 with
  | .error e => ([], .error e)
  | .ok (base, queue, rewound) =>
    let pre := if rewound > 0 then [Event.ReorgDetected (base.number + 1)] else []
    let out := replay base queue
    (pre ++ out.1, out.2)

/-- One iteration of `fetch_loop` (lines 175-197), after the next header has
been obtained: the staleness check
`if last.number.unwrap_or_default() >= number { continue; }`, then
`send_with_reorgs`, then `*last = header` on success.  Returns the events
sent, the updated `last`, and the error if the loop ends. -/
def fetchIteration (fetch : Fetch) (last header : Header) :
    List Event × Header × Option Err :=
  if header.number ≤ last.number then ([], last, none)
  else
    match send_with_reorgs fetch last header with
    | (evs, .ok _) => (evs, header, none)
    | (evs, .error e) => (evs, last, some e)

/-! ## Block watcher: the retry loop (`run`, lines 104-130) -/

/-- The state of `run`'s retry loop between iterations: the last accepted
header (`None` before initialization) and the consecutive-failure counter,
or the two ways the loop exits. -/
inductive RunState where
  | Running (last : Option Header) (retries : Nat)
  | Done
  | Fatal (e : Err)
deriving DecidableEq

/-- One pass of `run`'s loop (lines 107-129). `step` models
`run_once(&url, &sender, &mut last)`: from the current `last` it yields the
mutated `last` and `none` for `Ok(())` or `some e` for an error.  On error:
reset `retries` to zero if `last` changed (`if last != first`), exit fatally
if `retries > MAX_TRIES`, otherwise increment `retries` and keep running. -/
def runStep (step : Option Header → Option Header × Option Err) :
    RunState → RunState
  | .Running last retries =>
    let out := step last
    match out.2 with
    | none => .Done
    | some e =>
      let retries' := if out.1 ≠ last then 0 else retries
      if retries' > MAX_TRIES then .Fatal e
      else .Running out.1 (retries' + 1)
  | s => s

/-! ## Block watcher: the Kafka producer (`src/block-watcher/src/producer.rs`) -/

/-- The per-event handler inside `Producer::start` (lines 31-43): a
`Reorgable::Reorg { .. }` event is matched and the closure returns `Ok(())`
without sending anything; a `Reorgable::Event(header)` is sent to the Kafka
topic.  The result lists the headers sent for the event. -/
def producerHandle : Event → List Header
  | .ReorgDetected _ => []
  | .HeaderAccepted h => [h]

/-! ## Order state batcher (`src/order-watcher/src/ethereum/batcher.rs`) -/

namespace Batcher

/-- `SignedOrder`, compared by content (`PartialEq`); opaque here. -/
abbrev SignedOrder := Nat

/-- A `oneshot::Sender` handle for a waiter; opaque here. -/
abbrev Waiter := Nat

/-- `SignedOrderState`; opaque here. -/
abbrev OrderState := Nat

/-- `type Job = (SignedOrder, SmallVec<[Sender<..>; 1]>)` (lines 95-98). -/
abbrev Job := SignedOrder × List Waiter

/-- The batcher's `Error` enum (lines 100-106). `Web3Error` carries
`error.to_string()`, opaque here. -/
inductive BatchError where
  | Web3Error (msg : Nat)
  | InvalidOutputLength
deriving DecidableEq

/-- `struct State { priority: Vec<Job>, queue: Vec<Job> }` (lines 108-112). -/
structure State where
  priority : List Job
  queue : List Job
deriving DecidableEq

/-- `State::len` (lines 135-137). -/
def State.len (st : State) : Nat := st.priority.length + st.queue.length

/-- Split a lane at the first job whose order equals `k`
(`iter_mut().find(|other| other.0 == job.0)` respectively
`iter().position(..)` in `State::insert`): the jobs before it, that job, and
the jobs after it; `none` when no job in the lane has that order. -/
def splitFirst (k : SignedOrder) : List Job → Option (List Job × Job × List Job)
  | [] => none
  | j :: rest =>
    if j.1 = k then some ([], j, rest)
    else
      match splitFirst k rest with
      | some (pre, e, post) => some (j :: pre, e, post)
      | none => none

/-- `State::insert` (lines 152-170).  If a job with an equal order exists in
the priority lane, append the new job's waiters to it.  Else if one exists in
the normal lane, append the waiters there; when `priority` is requested,
remove that (merged) job from the normal lane and push it at the back of the
priority lane.  Else push the new job at the back of the requested lane. -/
def State.insert (st : State) (job : Job) (priority : Bool) : State :=
  match splitFirst job.1 st.priority with
  | some (pre, e, post) => { st with priority := pre ++ (e.1, e.2 ++ job.2) :: post }
  | none =>
    match splitFirst job.1 st.queue with
    | some (pre, e, post) =>
      let merged : Job := (e.1, e.2 ++ job.2)
      if priority then
        { priority := st.priority ++ [merged], queue := pre ++ post }
      else
        { st with queue := pre ++ merged :: post }
    | none =>
      if priority then { st with priority := st.priority ++ [job] }
      else { st with queue := st.queue ++ [job] }

/-- `State::take_batch` (lines 139-150): drain up to `batch_size` jobs from
the front of the priority lane, then up to the remainder from the front of
the normal lane; return the drained jobs and the state left behind. -/
def State.take_batch (st : State) (batch_size : Nat) : List Job × State :=
  let num_p := min st.priority.length batch_size
  let num_q := min st.queue.length (batch_size - num_p)
  (st.priority.take num_p ++ st.queue.take num_q,
    { priority := st.priority.drop num_p, queue := st.queue.drop num_q })

/-- The `batchGetLimitOrderRelevantStates` contract query, abstracted: a map
from the input order list to a result vector or an opaque `eth_call` error
message. -/
abbrev Call := List SignedOrder → Except Nat (List OrderState)

/-- `Batcher::fetch_batch_state` (lines 278-303): issue the contract call;
map a call failure to `Error::Web3Error`; require the output vector's length
to equal the input's (`require!(output.len() == len, InvalidOutputLength)`). -/
def fetch_batch_state (call : Call) (orders : List SignedOrder) :
    Except BatchError (List OrderState) :=
  match call orders with
  | .error e => .error (.Web3Error e)
  | .ok output =>
    if output.length = orders.length then .ok output
    else .error .InvalidOutputLength

/-- The result fan-out in `Batcher::run`'s spawned task (lines 257-272): on
success, zip the batch with the result vector and send each job's per-item
result to each of its waiters; on failure, send a clone of the error to every
waiter of every job.  The result is the list of oneshot sends in order (the
code ignores each send's result: delivery to a dropped receiver is
discarded). -/
def deliver (batch : List Job) :
    Except BatchError (List OrderState) → List (Waiter × Except BatchError OrderState)
  | .ok vec => (batch.zip vec).flatMap fun jr => jr.1.2.map fun w => (w, .ok jr.2)
  | .error e => batch.flatMap fun j => j.2.map fun w => (w, .error e)

/-- One dispatched batch in `Batcher::run` (lines 249-273): the call input is
`batch.iter().map(|job| job.0).collect()`; the call result is fanned out by
`deliver`. -/
def dispatchBatch (call : Call) (batch : List Job) :
    List (Waiter × Except BatchError OrderState) :=
  deliver batch (fetch_batch_state call (batch.map Prod.fst))

/-- The orders present in the two lanes, priority lane first. -/
def State.keys (st : State) : List SignedOrder :=
  st.priority.map Prod.fst ++ st.queue.map Prod.fst

/-- The lane invariant: every order appears in at most one lane, at most
once. -/
def State.Distinct (st : State) : Prop := st.keys.Nodup

/-- All waiters registered for order `k`, across both lanes in order. -/
def waitersFor (k : SignedOrder) (st : State) : List Waiter :=
  ((st.priority ++ st.queue).filterMap fun j =>
    if j.1 = k then some j.2 else none).flatten

end Batcher

/-! ## Derived notions used by the statements -/

/-- Hash-chain linkage between a previously accepted header and the next
one: consecutive block numbers and matching parent hash. -/
def Linked (p n : Header) : Prop :=
  n.number = p.number + 1 ∧ n.parent_hash = p.hash

instance : DecidableRel Linked := fun p n => by
  unfold Linked; infer_instance

/-- The headers of the `HeaderAccepted` events of an event list, in order. -/
def acceptedHeaders : List Event → List Header
  | [] => []
  | .HeaderAccepted h :: rest => h :: acceptedHeaders rest
  | .ReorgDetected _ :: rest => acceptedHeaders rest

/-! ## Lemmas about the emission loop -/

/-- Every header the replay loop sends extends the previously sent one (or
the base, for the first) by exactly one number and by parent hash: the
sanity checks run before each send. -/
theorem replay_chain' (l : List Header) : ∀ base : Header,
    List.Chain' Linked (base :: acceptedHeaders (replay base l).1) := by
  induction l with
  | nil =>
    intro base
    simp [replay, acceptedHeaders]
  | cons h rest ih =>
    intro base
    by_cases hn : h.number = base.number + 1
    · by_cases hp : h.parent_hash = base.hash
      · have hr : replay base (h :: rest) =
            (.HeaderAccepted h :: (replay h rest).1, (replay h rest).2) := by
          simp [replay, hn, hp]
        rw [hr]
        simp only [acceptedHeaders]
        exact List.chain'_cons.mpr ⟨⟨hn, hp⟩, ih h⟩
      · have hr : replay base (h :: rest) = ([], .error .InsaneParentHash) := by
          simp [replay, hn, hp]
        rw [hr]
        simp [acceptedHeaders]
    · have hr : replay base (h :: rest) = ([], .error .InsaneNumber) := by
        simp [replay, hn]
      rw [hr]
      simp [acceptedHeaders]

/-- If the pending chain does not link up, the replay loop ends in one of the
two sanity-check errors. -/
theorem replay_error_of_not_chain (l : List Header) : ∀ base : Header,
    ¬ List.Chain' Linked (base :: l) →
    ∃ e, (replay base l).2 = .error e
      ∧ (e = Err.InsaneNumber ∨ e = Err.InsaneParentHash) := by
  induction l with
  | nil =>
    intro base hc
    exact absurd (List.chain'_singleton base) hc
  | cons h rest ih =>
    intro base hc
    by_cases hn : h.number = base.number + 1
    · by_cases hp : h.parent_hash = base.hash
      · have hcr : ¬ List.Chain' Linked (h :: rest) := fun hk =>
          hc (List.chain'_cons.mpr ⟨⟨hn, hp⟩, hk⟩)
        obtain ⟨e, he, hor⟩ := ih h hcr
        refine ⟨e, ?_, hor⟩
        simp [replay, hn, hp, he]
      · exact ⟨.InsaneParentHash, by simp [replay, hn, hp], Or.inr rfl⟩
    · exact ⟨.InsaneNumber, by simp [replay, hn], Or.inl rfl⟩

/-- On a linked pending chain, the replay loop sends every header in order
and ends with the newest one accepted. -/
theorem replay_of_chain (l : List Header) : ∀ base : Header,
    List.Chain' Linked (base :: l) →
    replay base l = (l.map Event.HeaderAccepted, .ok (l.getLastD base)) := by
  induction l with
  | nil =>
    intro base _
    simp [replay]
  | cons h rest ih =>
    intro base hc
    obtain ⟨⟨hn, hp⟩, hcr⟩ := List.chain'_cons.mp hc
    simp only [replay, hn, hp, ih h hcr]
    cases rest with
    | nil => simp
    | cons x xs =>
      obtain ⟨y, hy⟩ := Option.isSome_iff_exists.mp
        (List.getLast?_isSome.mpr (List.cons_ne_nil x xs))
      simp [hy]

/-- A successful replay implies the pending chain was linked. -/
theorem chain_of_replay_ok {l : List Header} {base f : Header}
    (h : (replay base l).2 = .ok f) : List.Chain' Linked (base :: l) := by
  by_contra hc
  obtain ⟨e, he, _⟩ := replay_error_of_not_chain l base hc
  rw [h] at he
  exact Except.noConfusion he

theorem acceptedHeaders_append (a b : List Event) :
    acceptedHeaders (a ++ b) = acceptedHeaders a ++ acceptedHeaders b := by
  induction a with
  | nil => rfl
  | cons e rest ih => cases e <;> simp [acceptedHeaders, ih]

/-- The queue built by the resolution loop extends its starting queue at the
older end: in particular the newest element stays `latest`. -/
theorem buildQueue_ok_suffix (fetch : Fetch) : ∀ (fuel : Nat)
    (last tip : Header) (rest : List Header) (rew : Nat)
    {base : Header} {q : List Header} {r : Nat},
    buildQueue fetch fuel last tip rest rew = .ok (base, q, r) →
    ∃ pre, q = pre ++ tip :: rest := by
  intro fuel
  induction fuel with
  | zero =>
    intro last tip rest rew base q r h
    exact absurd h (by simp [buildQueue])
  | succ n ih =>
    intro last tip rest rew base q r h
    by_cases h1 : tip.number = last.number + 1 ∧ tip.parent_hash = last.hash
    · rw [buildQueue, if_pos h1] at h
      obtain ⟨-, h2, -⟩ := by
        simpa using h
      exact ⟨[], h2.symm⟩
    · by_cases h2 : tip.number = last.number + 1
      · rw [buildQueue, if_neg h1, if_pos h2] at h
        cases hl : fetch last.parent_hash with
        | error e => rw [hl] at h; exact absurd h (by simp)
        | ok last' =>
          rw [hl] at h
          cases hpar : fetch tip.parent_hash with
          | error e => rw [hpar] at h; exact absurd h (by simp)
          | ok parent =>
            rw [hpar] at h
            obtain ⟨pre, hq⟩ := ih last' parent (tip :: rest) (rew + 1) h
            exact ⟨pre ++ [parent], by simpa using hq⟩
      · rw [buildQueue, if_neg h1, if_neg h2] at h
        cases hpar : fetch tip.parent_hash with
        | error e => rw [hpar] at h; exact absurd h (by simp)
        | ok parent =>
          rw [hpar] at h
          obtain ⟨pre, hq⟩ := ih last parent (tip :: rest) rew h
          exact ⟨pre ++ [parent], by simpa using hq⟩

/-! ## Concrete scenarios used by the witnesses -/

/-- A two-block reorg scenario (the spec's example): the accepted chain ends
in block 100 (hash 5, parent hash 3 = block 99); the canonical chain replaces
it with block 100' (hash 6) and its child 101' (hash 7). -/
def exFetch : Fetch := fun h =>
  if h = 3 then .ok ⟨99, 3, 2⟩
  else if h = 6 then .ok ⟨100, 6, 3⟩
  else .error .NotFound

def exLast : Header := ⟨100, 5, 3⟩

def exLatest : Header := ⟨101, 7, 6⟩

/-- A source whose ancestor chain never reconnects to the accepted header:
every fetched header just continues downward. -/
def exFetch7 : Fetch := fun h => .ok ⟨h, h, h - 1⟩

def exLast7 : Header := ⟨0, 1000, 999⟩

def exLatest7 : Header := ⟨50, 50, 49⟩

/-- A fetch oracle that always fails; the staleness check never reaches it. -/
def stubFetch : Fetch := fun _ => .error .NotFound

/-- A connection cycle that always fails without touching `last`. -/
def exStep : Option Header → Option Header × Option Err :=
  fun o => (o, some .EndOfStream)

/-! ## C1, C2, C7, C8, C9, C10: the block watcher claims -/

/-- C1: any two consecutively emitted `HeaderAccepted` headers of a
`send_with_reorgs` call satisfy `next.number = prev.number + 1` and
`next.parent_hash = prev.hash`; the replay step re-verifies both equations
before each emission, and when the pending chain violates them the loop ends
in `InsaneNumber` or `InsaneParentHash` without emitting the violating
header (every header emitted up to that point still passed its checks
against its predecessor, the rewound base included). -/
theorem c1_consecutive_emissions_linked (fetch : Fetch) (last latest : Header) :
    List.Chain' Linked (acceptedHeaders (send_with_reorgs fetch last latest).1)
    ∧ ∀ (base : Header) (queue : List Header),
        ¬ List.Chain' Linked (base :: queue) →
        ∃ e, (replay base queue).2 = .error e
          ∧ (e = Err.InsaneNumber ∨ e = Err.InsaneParentHash)
          ∧ List.Chain' Linked (base :: acceptedHeaders (replay base queue).1) := by
  constructor
  · cases hb : buildQueue fetch MAX_REORG last latest [] 0 with
    | error e => simp [send_with_reorgs, hb, acceptedHeaders]
    | ok t =>
      obtain ⟨base, queue, rewound⟩ := t
      have hsw : send_with_reorgs fetch last latest =
          ((if rewound > 0 then [Event.ReorgDetected (base.number + 1)] else [])
              ++ (replay base queue).1,
            (replay base queue).2) := by
        simp [send_with_reorgs, hb]
      rw [hsw]
      have hpre : acceptedHeaders
          (if rewound > 0 then [Event.ReorgDetected (base.number + 1)] else []) = [] := by
        split <;> simp [acceptedHeaders]
      rw [show ((if rewound > 0 then [Event.ReorgDetected (base.number + 1)] else [])
          ++ (replay base queue).1, (replay base queue).2).1
          = (if rewound > 0 then [Event.ReorgDetected (base.number + 1)] else [])
            ++ (replay base queue).1 from rfl]
      rw [acceptedHeaders_append, hpre, List.nil_append]
      exact (replay_chain' queue base).tail
  · intro base queue hc
    obtain ⟨e, he, hor⟩ := replay_error_of_not_chain queue base hc
    exact ⟨e, he, hor, replay_chain' queue base⟩

/-- C2: when the resolution loop succeeds after `rewound ≥ 1` rewinds, the
emitted events are exactly one `ReorgDetected` at the rewound base's number
plus one (the first invalidated height), followed by the pending chain
replayed oldest-to-newest as `HeaderAccepted` events; the final accepted
header (what `fetch_loop` stores into `last`) is the newest emitted header,
`latest`. -/
theorem c2_single_reorg_event (fetch : Fetch) (last latest base final : Header)
    (queue : List Header) (rewound : Nat)
    (hb : buildQueue fetch MAX_REORG last latest [] 0 = .ok (base, queue, rewound))
    (hr : 0 < rewound)
    (hs : (send_with_reorgs fetch last latest).2 = .ok final) :
    (send_with_reorgs fetch last latest).1 =
      Event.ReorgDetected (base.number + 1) :: queue.map Event.HeaderAccepted
    ∧ final = latest
    ∧ (last.number < latest.number →
        fetchIteration fetch last latest =
          (Event.ReorgDetected (base.number + 1) :: queue.map Event.HeaderAccepted,
            latest, none)) := by
  have hsw : send_with_reorgs fetch last latest =
      (Event.ReorgDetected (base.number + 1) :: (replay base queue).1,
        (replay base queue).2) := by
    simp [send_with_reorgs, hb, hr]
  have h2 : (replay base queue).2 = .ok final := by rw [hsw] at hs; exact hs
  have hchain := chain_of_replay_ok h2
  have hrep := replay_of_chain queue base hchain
  obtain ⟨pre, hq⟩ := buildQueue_ok_suffix fetch MAX_REORG last latest [] 0 hb
  have hlastq : queue.getLastD base = latest := by
    rw [hq]
    exact List.getLastD_concat _ _ _
  have hfin : final = latest := by
    rw [hrep] at h2
    simp only [Except.ok.injEq] at h2
    rw [← h2, hlastq]
  refine ⟨?_, hfin, ?_⟩
  · rw [hsw]
    simp [hrep]
  · intro hlt
    have hnle : ¬ latest.number ≤ last.number := Nat.not_le.mpr hlt
    simp only [fetchIteration, if_neg hnle, hsw, hrep]

/-- C7: the pending chain is never allowed to exceed `MAX_REORG = 10`
headers: at the loop head where the queue holds more than `MAX_REORG`
entries (the fuel counter, carrying `MAX_REORG + 1 - queue.len()`, has hit
zero) the loop fails with `ReorgOverflow`; any failure of the resolution
loop makes `send_with_reorgs` return the error with no event emitted, and
the fetch-loop iteration reports the error with the last accepted header
unchanged. -/
theorem c7_reorg_overflow (fetch : Fetch) (last latest tip : Header)
    (rest : List Header) (rew fuel : Nat) (e : Err)
    (hinv : fuel + (tip :: rest).length = MAX_REORG + 1)
    (hlen : MAX_REORG < (tip :: rest).length)
    (hb : buildQueue fetch MAX_REORG last latest [] 0 = .error e) :
    MAX_REORG = 10
    ∧ buildQueue fetch fuel last tip rest rew = .error Err.ReorgOverflow
    ∧ send_with_reorgs fetch last latest = ([], .error e)
    ∧ (last.number < latest.number →
        fetchIteration fetch last latest = ([], last, some e)) := by
  have hf : fuel = 0 := by
    simp only [List.length_cons, MAX_REORG] at hinv hlen
    omega
  subst hf
  refine ⟨rfl, rfl, ?_, ?_⟩
  · simp [send_with_reorgs, hb]
  · intro hlt
    have hnle : ¬ latest.number ≤ last.number := Nat.not_le.mpr hlt
    simp [fetchIteration, hnle, send_with_reorgs, hb]

/-- C8: in the retry loop, a failing cycle that made no progress while the
counter already exceeds `MAX_TRIES = 10` terminates fatally with the cycle's
error; a failing cycle during which `last` changed resets the counter (it
continues as 0 + 1 = 1, so the reset takes effect at that next failure, not
retroactively); a failing cycle without progress and within budget just
increments the counter. -/
theorem c8_retry_budget (step : Option Header → Option Header × Option Err)
    (last last' : Option Header) (retries : Nat) (e : Err)
    (hs : step last = (last', some e)) :
    MAX_TRIES = 10
    ∧ (last' = last → MAX_TRIES < retries →
        runStep step (.Running last retries) = .Fatal e)
    ∧ (last' ≠ last → runStep step (.Running last retries) = .Running last' 1)
    ∧ (last' = last → retries ≤ MAX_TRIES →
        runStep step (.Running last retries) = .Running last' (retries + 1)) := by
  refine ⟨rfl, ?_, ?_, ?_⟩
  · intro heq hgt
    simp [runStep, hs, heq, Nat.lt_iff_add_one_le.mp hgt, hgt]
  · intro hne
    simp [runStep, hs, hne]
  · intro heq hle
    simp [runStep, hs, heq, Nat.not_lt.mpr hle]

theorem c8_retry_budget_witness :
    MAX_TRIES = 10
    ∧ ((none : Option Header) = none → MAX_TRIES < 11 →
        runStep exStep (.Running none 11) = .Fatal .EndOfStream)
    ∧ ((none : Option Header) ≠ none →
        runStep exStep (.Running none 11) = .Running none 1)
    ∧ ((none : Option Header) = none → 11 ≤ MAX_TRIES →
        runStep exStep (.Running none 11) = .Running none (11 + 1)) :=
  c8_retry_budget exStep none none 11 .EndOfStream rfl

/-- C9: a fetch-loop iteration whose obtained header is not strictly newer
than the last accepted header emits nothing, leaves the last accepted header
unchanged and continues the loop. -/
theorem c9_stale_header_discarded (fetch : Fetch) (last header : Header)
    (hstale : header.number ≤ last.number) :
    fetchIteration fetch last header = ([], last, none) := by
  simp [fetchIteration, hstale]

theorem c9_stale_header_discarded_witness :
    fetchIteration stubFetch ⟨5, 9, 8⟩ ⟨5, 1, 2⟩ = ([], ⟨5, 9, 8⟩, none) :=
  c9_stale_header_discarded stubFetch ⟨5, 9, 8⟩ ⟨5, 1, 2⟩ (by decide)

/-- C10: the block-watcher Kafka producer forwards only accepted headers to
the message bus; a `ReorgDetected` event is matched and discarded without
sending anything. -/
theorem c10_producer_drops_reorgs (n : Nat) (h : Header) :
    producerHandle (Event.ReorgDetected n) = []
    ∧ producerHandle (Event.HeaderAccepted h) = [h] :=
  ⟨rfl, rfl⟩

theorem c2_single_reorg_event_witness :
    (send_with_reorgs exFetch exLast exLatest).1 =
      Event.ReorgDetected (Header.number ⟨99, 3, 2⟩ + 1)
        :: ([⟨100, 6, 3⟩, ⟨101, 7, 6⟩] : List Header).map Event.HeaderAccepted
    ∧ (⟨101, 7, 6⟩ : Header) = exLatest
    ∧ (exLast.number < exLatest.number →
        fetchIteration exFetch exLast exLatest =
          (Event.ReorgDetected (Header.number ⟨99, 3, 2⟩ + 1)
            :: ([⟨100, 6, 3⟩, ⟨101, 7, 6⟩] : List Header).map Event.HeaderAccepted,
            exLatest, none)) :=
  c2_single_reorg_event exFetch exLast exLatest ⟨99, 3, 2⟩ ⟨101, 7, 6⟩
    [⟨100, 6, 3⟩, ⟨101, 7, 6⟩] 1 rfl (by decide) rfl

theorem c7_reorg_overflow_witness :
    MAX_REORG = 10
    ∧ buildQueue exFetch7 0 exLast7 ⟨0, 0, 0⟩ (List.replicate 10 ⟨0, 0, 0⟩) 0 =
        .error Err.ReorgOverflow
    ∧ send_with_reorgs exFetch7 exLast7 exLatest7 = ([], .error Err.ReorgOverflow)
    ∧ (exLast7.number < exLatest7.number →
        fetchIteration exFetch7 exLast7 exLatest7 =
          ([], exLast7, some Err.ReorgOverflow)) :=
  c7_reorg_overflow exFetch7 exLast7 exLatest7 ⟨0, 0, 0⟩
    (List.replicate 10 ⟨0, 0, 0⟩) 0 0 Err.ReorgOverflow (by decide) (by decide) rfl

/-! ## Lemmas about the batcher queue lanes -/

namespace Batcher

instance (st : State) : Decidable st.Distinct := by
  unfold State.Distinct
  infer_instance

/-- What a successful lane split means: the lane decomposes around the first
job with the searched order. -/
theorem splitFirst_eq_some {k : SignedOrder} : ∀ {l : List Job} {pre e post},
    splitFirst k l = some (pre, e, post) →
    l = pre ++ e :: post ∧ e.1 = k ∧ ∀ x ∈ pre, x.1 ≠ k := by
  intro l
  induction l with
  | nil => intro pre e post h; simp [splitFirst] at h
  | cons j rest ih =>
    intro pre e post h
    by_cases hj : j.1 = k
    · rw [splitFirst, if_pos hj] at h
      simp only [Option.some.injEq, Prod.mk.injEq] at h
      obtain ⟨h1, h2, h3⟩ := h
      subst h1; subst h2; subst h3
      exact ⟨rfl, hj, by simp⟩
    · rw [splitFirst, if_neg hj] at h
      cases hs : splitFirst k rest with
      | none => rw [hs] at h; exact absurd h (by simp)
      | some t =>
        obtain ⟨pre', e', post'⟩ := t
        rw [hs] at h
        simp only [Option.some.injEq, Prod.mk.injEq] at h
        obtain ⟨h1, h2, h3⟩ := h
        subst h1; subst h2; subst h3
        obtain ⟨hr1, hr2, hr3⟩ := ih hs
        refine ⟨by rw [hr1]; rfl, hr2, ?_⟩
        intro x hx
        rcases List.mem_cons.mp hx with rfl | hx'
        · exact hj
        · exact hr3 x hx'

/-- A lane split fails exactly when no job in the lane has the order. -/
theorem splitFirst_eq_none {k : SignedOrder} : ∀ {l : List Job},
    splitFirst k l = none ↔ ∀ x ∈ l, x.1 ≠ k := by
  intro l
  induction l with
  | nil => simp [splitFirst]
  | cons j rest ih =>
    by_cases hj : j.1 = k
    · rw [splitFirst, if_pos hj]
      simp only [iff_false_intro (by simp : ¬ (some ([], j, rest) = none))]
      simp only [false_iff]
      intro hall
      exact hall j (by simp) hj
    · rw [splitFirst, if_neg hj]
      constructor
      · intro h x hx
        rcases List.mem_cons.mp hx with rfl | hx'
        · exact hj
        · refine ih.mp ?_ x hx'
          cases hs : splitFirst k rest with
          | none => rfl
          | some t => obtain ⟨a, b, c⟩ := t; rw [hs] at h; exact absurd h (by simp)
      · intro hall
        have : splitFirst k rest = none := ih.mpr fun x hx => hall x (List.mem_cons_of_mem _ hx)
        rw [this]

/-- An order is in a lane's key list exactly when the split succeeds. -/
theorem splitFirst_isSome_iff {k : SignedOrder} {l : List Job} :
    (splitFirst k l).isSome ↔ k ∈ l.map Prod.fst := by
  rw [Option.isSome_iff_ne_none]
  constructor
  · intro h
    by_contra hmem
    exact h (splitFirst_eq_none.mpr fun x hx hxk => hmem (by
      exact List.mem_map.mpr ⟨x, hx, hxk⟩))
  · intro hmem h
    obtain ⟨x, hx, hxk⟩ := List.mem_map.mp hmem
    exact splitFirst_eq_none.mp h x hx hxk

/-- `Nodup` around a distinguished middle element. -/
theorem nodup_split_middle {α : Type} {A B : List α} {k : α} :
    (A ++ k :: B).Nodup ↔ k ∉ A ∧ k ∉ B ∧ (A ++ B).Nodup := by
  rw [List.nodup_middle, List.nodup_cons, List.mem_append]
  tauto

/-- The waiters registered for an order that occurs exactly once in the
combined lanes are that occurrence's waiter list. -/
theorem filterMap_key_unique {k : SignedOrder} {X Y : List Job} {e : Job}
    (hX : ∀ x ∈ X, x.1 ≠ k) (he : e.1 = k) (hY : ∀ x ∈ Y, x.1 ≠ k) :
    (((X ++ e :: Y).filterMap fun j =>
      if j.1 = k then some j.2 else none)).flatten = e.2 := by
  have hXnil : (X.filterMap fun j => if j.1 = k then some j.2 else none) = [] := by
    rw [List.filterMap_eq_nil_iff]
    intro a ha
    simp [hX a ha]
  have hYnil : (Y.filterMap fun j => if j.1 = k then some j.2 else none) = [] := by
    rw [List.filterMap_eq_nil_iff]
    intro a ha
    simp [hY a ha]
  rw [List.filterMap_append, hXnil, List.nil_append, List.filterMap_cons, if_pos he]
  rw [hYnil]
  simp

end Batcher

namespace Batcher

/-- `State::insert` either leaves the multiset of queued orders unchanged
(the order was already queued somewhere and only waiters were appended or
the job was promoted) or adds the one new order, which was in neither
lane. -/
theorem insert_keys (st : State) (job : Job) (b : Bool) :
    (st.insert job b).keys.Perm st.keys
    ∨ ((st.insert job b).keys.Perm (job.1 :: st.keys) ∧ job.1 ∉ st.keys) := by
  cases hp : splitFirst job.1 st.priority with
  | some t =>
    obtain ⟨pre, e, post⟩ := t
    obtain ⟨hdecomp, hek, hpre⟩ := splitFirst_eq_some hp
    left
    have hkeq : (st.insert job b).keys = st.keys := by
      simp only [State.insert, hp, State.keys]
      rw [hdecomp]
      simp
    rw [hkeq]
  | none =>
    cases hq : splitFirst job.1 st.queue with
    | some t =>
      obtain ⟨pre, e, post⟩ := t
      obtain ⟨hdecomp, hek, hpre⟩ := splitFirst_eq_some hq
      left
      cases b with
      | false =>
        have hkeq : (st.insert job false).keys = st.keys := by
          simp only [State.insert, hp, hq, State.keys]
          rw [hdecomp]
          simp
        rw [hkeq]
      | true =>
        have hk : (st.insert job true).keys =
            st.priority.map Prod.fst
              ++ e.1 :: (pre.map Prod.fst ++ post.map Prod.fst) := by
          simp only [State.insert, hp, hq, State.keys]
          simp
        rw [hk, State.keys, hdecomp]
        simp only [List.map_append, List.map_cons]
        exact List.Perm.append_left _ List.perm_middle.symm
    | none =>
      right
      have hfresh : job.1 ∉ st.keys := by
        rw [State.keys]
        intro hmem
        rcases List.mem_append.mp hmem with hmem | hmem
        · obtain ⟨x, hx, hxk⟩ := List.mem_map.mp hmem
          exact splitFirst_eq_none.mp hp x hx hxk
        · obtain ⟨x, hx, hxk⟩ := List.mem_map.mp hmem
          exact splitFirst_eq_none.mp hq x hx hxk
      refine ⟨?_, hfresh⟩
      cases b with
      | true =>
        have hk : (st.insert job true).keys
            = st.priority.map Prod.fst ++ job.1 :: st.queue.map Prod.fst := by
          simp only [State.insert, hp, hq, State.keys]
          simp
        rw [hk, State.keys]
        exact List.perm_middle
      | false =>
        have hk : (st.insert job false).keys
            = (st.priority.map Prod.fst ++ st.queue.map Prod.fst) ++ [job.1] := by
          simp only [State.insert, hp, hq, State.keys]
          simp
        rw [hk, State.keys]
        exact List.perm_append_singleton _ _

end Batcher

/-! ## C5, C6: lane invariant and batch formation -/

/-- C5: the per-order uniqueness invariant across the two lanes (an order
appears in at most one lane, at most once) is preserved by every `insert` and
every `take_batch`; a promotion (`insert` with priority of an order present
only in the normal lane) removes exactly that job from the normal lane,
keeping the relative order of the others, and appends it, with its merged
waiter list, at the back of the priority lane. -/
theorem c5_lane_invariant (st : Batcher.State) (job : Batcher.Job) (pr : Bool)
    (n : Nat) (hd : st.Distinct) :
    (st.insert job pr).Distinct
    ∧ (st.take_batch n).2.Distinct
    ∧ (Batcher.splitFirst job.1 st.priority = none →
        ∀ pre e post, Batcher.splitFirst job.1 st.queue = some (pre, e, post) →
          st.queue = pre ++ e :: post ∧ e.1 = job.1
          ∧ (st.insert job true).priority = st.priority ++ [(e.1, e.2 ++ job.2)]
          ∧ (st.insert job true).queue = pre ++ post) := by
  refine ⟨?_, ?_, ?_⟩
  · rcases Batcher.insert_keys st job pr with hperm | ⟨hperm, hfresh⟩
    · exact hperm.nodup_iff.mpr hd
    · exact hperm.nodup_iff.mpr (List.nodup_cons.mpr ⟨hfresh, hd⟩)
  · have hsub : (st.take_batch n).2.keys.Sublist st.keys := by
      simp only [Batcher.State.take_batch, Batcher.State.keys]
      exact List.Sublist.append
        ((List.drop_sublist _ _).map _) ((List.drop_sublist _ _).map _)
    exact List.Nodup.sublist hsub hd
  · intro hp pre e post hq
    obtain ⟨hdecomp, hek, hpre⟩ := Batcher.splitFirst_eq_some hq
    refine ⟨hdecomp, hek, ?_, ?_⟩
    · simp [Batcher.State.insert, hp, hq]
    · simp [Batcher.State.insert, hp, hq]

theorem c5_lane_invariant_witness :
    ((⟨[(1, [10])], [(2, [20]), (3, [30])]⟩ : Batcher.State).insert (2, [21]) true).Distinct
    ∧ ((⟨[(1, [10])], [(2, [20]), (3, [30])]⟩ : Batcher.State).take_batch 1).2.Distinct
    ∧ (Batcher.splitFirst 2 [(1, [10])] = none →
        ∀ pre e post, Batcher.splitFirst 2 [(2, [20]), (3, [30])] = some (pre, e, post) →
          [(2, [20]), (3, [30])] = pre ++ e :: post ∧ e.1 = 2
          ∧ ((⟨[(1, [10])], [(2, [20]), (3, [30])]⟩ : Batcher.State).insert
              (2, [21]) true).priority = [(1, [10])] ++ [(e.1, e.2 ++ [21])]
          ∧ ((⟨[(1, [10])], [(2, [20]), (3, [30])]⟩ : Batcher.State).insert
              (2, [21]) true).queue = pre ++ post) :=
  c5_lane_invariant ⟨[(1, [10])], [(2, [20]), (3, [30])]⟩ (2, [21]) true 1 (by decide)

/-- C6: `take_batch` returns at most `batch_size` jobs: the longest prefix
of the priority lane up to `batch_size`, then a prefix of the normal lane
filling the remainder, FIFO within each lane, and leaves exactly the
un-drained suffixes behind; if any priority job is left behind the batch is
full. -/
theorem c6_take_batch_bounded (st : Batcher.State) (batch_size : Nat) :
    ((st.take_batch batch_size).1).length ≤ batch_size
    ∧ (st.take_batch batch_size).1
        = st.priority.take (min st.priority.length batch_size)
          ++ st.queue.take (min st.queue.length
              (batch_size - min st.priority.length batch_size))
    ∧ st.priority
        = st.priority.take (min st.priority.length batch_size)
          ++ (st.take_batch batch_size).2.priority
    ∧ st.queue
        = st.queue.take (min st.queue.length
            (batch_size - min st.priority.length batch_size))
          ++ (st.take_batch batch_size).2.queue
    ∧ ((st.take_batch batch_size).2.priority ≠ [] →
        ((st.take_batch batch_size).1).length = batch_size) := by
  refine ⟨?_, rfl, ?_, ?_, ?_⟩
  · simp only [Batcher.State.take_batch, List.length_append, List.length_take]
    omega
  · simp only [Batcher.State.take_batch]
    exact (List.take_append_drop _ _).symm
  · simp only [Batcher.State.take_batch]
    exact (List.take_append_drop _ _).symm
  · intro hne
    have hgt : ¬ st.priority.length ≤ min st.priority.length batch_size := by
      intro hle
      exact hne (List.drop_eq_nil_of_le hle)
    simp only [Batcher.State.take_batch, List.length_append, List.length_take]
    omega

/-! ## C3: admission and deduplication -/

/-- C3: `insert` deduplicates by order content.  If a job with an equal
order already sits in the priority lane, the call's waiters are appended to
it and no entry is created or moved; else if one sits in the normal lane,
the waiters are appended and — exactly when the call requests priority — the
job moves (with its accumulated waiter list) to the priority lane; else a
new job with only this call's waiters is appended to the requested lane.
In the two merge cases the number of queued jobs is unchanged and the
waiter list registered for the order becomes the old list with the call's
waiters appended, so every concurrent caller of one order holds a waiter
slot in the single entry for it. -/
theorem c3_insert_dedups (st : Batcher.State) (job : Batcher.Job) (pr : Bool)
    (hd : st.Distinct) :
    (job.1 ∈ st.priority.map Prod.fst →
      (st.insert job pr).len = st.len
      ∧ Batcher.waitersFor job.1 (st.insert job pr)
          = Batcher.waitersFor job.1 st ++ job.2
      ∧ (st.insert job pr).queue = st.queue)
    ∧ (job.1 ∉ st.priority.map Prod.fst → job.1 ∈ st.queue.map Prod.fst →
        (st.insert job pr).len = st.len
        ∧ Batcher.waitersFor job.1 (st.insert job pr)
            = Batcher.waitersFor job.1 st ++ job.2
        ∧ (pr = true → job.1 ∈ (st.insert job pr).priority.map Prod.fst
            ∧ job.1 ∉ (st.insert job pr).queue.map Prod.fst)
        ∧ (pr = false → (st.insert job pr).priority = st.priority))
    ∧ (job.1 ∉ st.priority.map Prod.fst → job.1 ∉ st.queue.map Prod.fst →
        st.insert job pr = if pr then ⟨st.priority ++ [job], st.queue⟩
          else ⟨st.priority, st.queue ++ [job]⟩) := by
  refine ⟨?_, ?_, ?_⟩
  · intro hmem
    obtain ⟨⟨pre, e, post⟩, hp⟩ :=
      Option.isSome_iff_exists.mp (Batcher.splitFirst_isSome_iff.mpr hmem)
    obtain ⟨hdecomp, hek, hpre⟩ := Batcher.splitFirst_eq_some hp
    have hd' := hd
    rw [Batcher.State.Distinct, Batcher.State.keys, hdecomp] at hd'
    rw [show (pre ++ e :: post).map Prod.fst ++ st.queue.map Prod.fst
        = pre.map Prod.fst ++ e.1 :: (post.map Prod.fst ++ st.queue.map Prod.fst) by
      simp] at hd'
    obtain ⟨-, hout, -⟩ := Batcher.nodup_split_middle.mp hd'
    have hY : ∀ x ∈ post ++ st.queue, x.1 ≠ job.1 := by
      intro x hx hxk
      exact hout (by
        rw [← hek] at hxk
        rcases List.mem_append.mp hx with hx' | hx'
        · exact List.mem_append.mpr (Or.inl (List.mem_map.mpr ⟨x, hx', hxk⟩))
        · exact List.mem_append.mpr (Or.inr (List.mem_map.mpr ⟨x, hx', hxk⟩)))
    have hins : st.insert job pr =
        ⟨pre ++ (e.1, e.2 ++ job.2) :: post, st.queue⟩ := by
      simp [Batcher.State.insert, hp]
    refine ⟨?_, ?_, ?_⟩
    · rw [hins, Batcher.State.len, Batcher.State.len, hdecomp]
      simp
    · rw [hins, Batcher.waitersFor, Batcher.waitersFor, hdecomp]
      rw [show ((⟨pre ++ (e.1, e.2 ++ job.2) :: post, st.queue⟩ :
            Batcher.State).priority ++ (⟨pre ++ (e.1, e.2 ++ job.2) :: post,
            st.queue⟩ : Batcher.State).queue)
          = pre ++ (e.1, e.2 ++ job.2) :: (post ++ st.queue) by simp]
      rw [show (pre ++ e :: post) ++ st.queue = pre ++ e :: (post ++ st.queue) by simp]
      rw [Batcher.filterMap_key_unique hpre hek hY]
      exact Batcher.filterMap_key_unique hpre hek hY
    · rw [hins]
  · intro hpnot hmem
    have hp : Batcher.splitFirst job.1 st.priority = none :=
      Batcher.splitFirst_eq_none.mpr fun x hx hxk =>
        hpnot (List.mem_map.mpr ⟨x, hx, hxk⟩)
    obtain ⟨⟨pre, e, post⟩, hq⟩ :=
      Option.isSome_iff_exists.mp (Batcher.splitFirst_isSome_iff.mpr hmem)
    obtain ⟨hdecomp, hek, hpre⟩ := Batcher.splitFirst_eq_some hq
    have hkp : ∀ x ∈ st.priority, x.1 ≠ job.1 := Batcher.splitFirst_eq_none.mp hp
    have hd' := hd
    rw [Batcher.State.Distinct, Batcher.State.keys, hdecomp] at hd'
    rw [show st.priority.map Prod.fst ++ ((pre ++ e :: post).map Prod.fst)
        = (st.priority.map Prod.fst ++ pre.map Prod.fst) ++ e.1 :: post.map Prod.fst by
      simp] at hd'
    obtain ⟨-, houtpost, -⟩ := Batcher.nodup_split_middle.mp hd'
    have hpost : ∀ x ∈ post, x.1 ≠ job.1 := by
      intro x hx hxk
      exact houtpost (by
        rw [← hek] at hxk
        exact List.mem_map.mpr ⟨x, hx, hxk⟩)
    have hXpp : ∀ x ∈ st.priority ++ pre, x.1 ≠ job.1 := by
      intro x hx
      rcases List.mem_append.mp hx with hx' | hx'
      · exact hkp x hx'
      · exact hpre x hx'
    have hwold : Batcher.waitersFor job.1 st = e.2 := by
      rw [Batcher.waitersFor, hdecomp]
      rw [show st.priority ++ (pre ++ e :: post)
          = (st.priority ++ pre) ++ e :: post by simp]
      exact Batcher.filterMap_key_unique hXpp hek hpost
    cases pr with
    | false =>
      have hins : st.insert job false =
          ⟨st.priority, pre ++ (e.1, e.2 ++ job.2) :: post⟩ := by
        simp [Batcher.State.insert, hp, hq]
      refine ⟨?_, ?_, ?_, ?_⟩
      · rw [hins, Batcher.State.len, Batcher.State.len, hdecomp]
        simp
      · rw [hins, hwold, Batcher.waitersFor]
        rw [show ((⟨st.priority, pre ++ (e.1, e.2 ++ job.2) :: post⟩ :
              Batcher.State).priority ++ (⟨st.priority, pre ++ (e.1, e.2 ++ job.2)
              :: post⟩ : Batcher.State).queue)
            = (st.priority ++ pre) ++ (e.1, e.2 ++ job.2) :: post by simp]
        exact Batcher.filterMap_key_unique hXpp hek hpost
      · intro habs
        exact absurd habs (by simp)
      · intro _
        rw [hins]
    | true =>
      have hins : st.insert job true =
          ⟨st.priority ++ [(e.1, e.2 ++ job.2)], pre ++ post⟩ := by
        simp [Batcher.State.insert, hp, hq]
      refine ⟨?_, ?_, ?_, ?_⟩
      · rw [hins, Batcher.State.len, Batcher.State.len, hdecomp]
        simp
        omega
      · rw [hins, hwold, Batcher.waitersFor]
        rw [show ((⟨st.priority ++ [(e.1, e.2 ++ job.2)], pre ++ post⟩ :
              Batcher.State).priority ++ (⟨st.priority ++ [(e.1, e.2 ++ job.2)],
              pre ++ post⟩ : Batcher.State).queue)
            = st.priority ++ (e.1, e.2 ++ job.2) :: (pre ++ post) by simp]
        have hYpp : ∀ x ∈ pre ++ post, x.1 ≠ job.1 := by
          intro x hx
          rcases List.mem_append.mp hx with hx' | hx'
          · exact hpre x hx'
          · exact hpost x hx'
        exact Batcher.filterMap_key_unique hkp hek hYpp
      · intro _
        constructor
        · rw [hins]
          simp [hek]
        · rw [hins]
          intro hmem'
          obtain ⟨x, hx, hxk⟩ := List.mem_map.mp hmem'
          rcases List.mem_append.mp hx with hx' | hx'
          · exact hpre x hx' hxk
          · exact hpost x hx' hxk
      · intro habs
        exact absurd habs (by simp)
  · intro hpnot hqnot
    have hp : Batcher.splitFirst job.1 st.priority = none :=
      Batcher.splitFirst_eq_none.mpr fun x hx hxk =>
        hpnot (List.mem_map.mpr ⟨x, hx, hxk⟩)
    have hq : Batcher.splitFirst job.1 st.queue = none :=
      Batcher.splitFirst_eq_none.mpr fun x hx hxk =>
        hqnot (List.mem_map.mpr ⟨x, hx, hxk⟩)
    cases pr <;> simp [Batcher.State.insert, hp, hq]

theorem c3_insert_dedups_witness :
    ((2 : Batcher.SignedOrder) ∈ ([(1, [10])] : List Batcher.Job).map Prod.fst →
      ((⟨[(1, [10])], [(2, [20]), (3, [30])]⟩ : Batcher.State).insert (2, [21]) true).len
          = (⟨[(1, [10])], [(2, [20]), (3, [30])]⟩ : Batcher.State).len
      ∧ Batcher.waitersFor 2 ((⟨[(1, [10])], [(2, [20]), (3, [30])]⟩ :
            Batcher.State).insert (2, [21]) true)
          = Batcher.waitersFor 2 (⟨[(1, [10])], [(2, [20]), (3, [30])]⟩ :
            Batcher.State) ++ [21]
      ∧ ((⟨[(1, [10])], [(2, [20]), (3, [30])]⟩ : Batcher.State).insert
            (2, [21]) true).queue = [(2, [20]), (3, [30])])
    ∧ ((2 : Batcher.SignedOrder) ∉ ([(1, [10])] : List Batcher.Job).map Prod.fst →
        (2 : Batcher.SignedOrder) ∈ ([(2, [20]), (3, [30])] : List Batcher.Job).map Prod.fst →
        ((⟨[(1, [10])], [(2, [20]), (3, [30])]⟩ : Batcher.State).insert (2, [21]) true).len
            = (⟨[(1, [10])], [(2, [20]), (3, [30])]⟩ : Batcher.State).len
        ∧ Batcher.waitersFor 2 ((⟨[(1, [10])], [(2, [20]), (3, [30])]⟩ :
              Batcher.State).insert (2, [21]) true)
            = Batcher.waitersFor 2 (⟨[(1, [10])], [(2, [20]), (3, [30])]⟩ :
              Batcher.State) ++ [21]
        ∧ (true = true →
            (2 : Batcher.SignedOrder) ∈ ((⟨[(1, [10])], [(2, [20]), (3, [30])]⟩ :
              Batcher.State).insert (2, [21]) true).priority.map Prod.fst
            ∧ (2 : Batcher.SignedOrder) ∉ ((⟨[(1, [10])], [(2, [20]), (3, [30])]⟩ :
              Batcher.State).insert (2, [21]) true).queue.map Prod.fst)
        ∧ (true = false →
            ((⟨[(1, [10])], [(2, [20]), (3, [30])]⟩ : Batcher.State).insert
              (2, [21]) true).priority = [(1, [10])]))
    ∧ ((2 : Batcher.SignedOrder) ∉ ([(1, [10])] : List Batcher.Job).map Prod.fst →
        (2 : Batcher.SignedOrder) ∉ ([(2, [20]), (3, [30])] : List Batcher.Job).map Prod.fst →
        (⟨[(1, [10])], [(2, [20]), (3, [30])]⟩ : Batcher.State).insert (2, [21]) true
          = if true then ⟨[(1, [10])] ++ [(2, [21])], [(2, [20]), (3, [30])]⟩
            else ⟨[(1, [10])], [(2, [20]), (3, [30])] ++ [(2, [21])]⟩) :=
  c3_insert_dedups ⟨[(1, [10])], [(2, [20]), (3, [30])]⟩ (2, [21]) true (by decide)

/-! ## Lemmas about batch dispatch fan-out -/

namespace Batcher

/-- On a failed call every job contributes one error send per waiter. -/
theorem deliver_error_length (batch : List Job) (e : BatchError) :
    (deliver batch (Except.error e)).length
      = (batch.map fun j => j.2.length).sum := by
  induction batch with
  | nil => rfl
  | cons j rest ih =>
    simp only [deliver] at ih ⊢
    simp [ih]

/-- On a successful call over a result vector of matching length every job
contributes one result send per waiter. -/
theorem deliver_ok_length (batch : List Job) : ∀ (out : List OrderState),
    out.length = batch.length →
    (deliver batch (Except.ok out)).length
      = (batch.map fun j => j.2.length).sum := by
  induction batch with
  | nil => intro out h; simp [deliver]
  | cons j rest ih =>
    intro out h
    cases out with
    | nil => simp at h
    | cons r rs =>
      simp only [deliver] at ih ⊢
      simp only [List.zip_cons_cons, List.flatMap_cons, List.length_append,
        List.length_map, List.map_cons, List.sum_cons]
      rw [ih rs (by simpa using h)]

/-- Positions pair up under `zip`. -/
theorem mem_zip_of_getElem {α β : Type} : ∀ (l1 : List α) (l2 : List β)
    (i : Nat) (a : α) (b : β),
    l1[i]? = some a → l2[i]? = some b → (a, b) ∈ l1.zip l2 := by
  intro l1
  induction l1 with
  | nil => intro l2 i a b h1 h2; simp at h1
  | cons x xs ih =>
    intro l2 i a b h1 h2
    cases l2 with
    | nil => simp at h2
    | cons y ys =>
      cases i with
      | zero =>
        simp only [List.getElem?_cons_zero, Option.some.injEq] at h1 h2
        subst h1; subst h2
        simp [List.zip_cons_cons]
      | succ n =>
        simp only [List.getElem?_cons_succ] at h1 h2
        exact List.mem_cons_of_mem _ (ih ys n a b h1 h2)

end Batcher

/-! ## C4: batch result delivery -/

/-- C4: for every dispatched batch, the sends produced number exactly one
per waiter of every drained job.  On a successful contract call whose result
vector matches the input's length, each job's waiters all receive the
per-item result at the job's position (the zip of batch and result vector);
a length mismatch is surfaced as `InvalidOutputLength` to every waiter; a
failed call delivers a clone of the same `Web3Error` to every waiter of
every job.  (Each send's outcome is ignored by the code, so a send to a
dropped receiver is discarded silently.) -/
theorem c4_dispatch_delivery (call : Batcher.Call) (batch : List Batcher.Job) :
    (Batcher.dispatchBatch call batch).length
        = (batch.map fun j => j.2.length).sum
    ∧ (∀ out, call (batch.map Prod.fst) = .ok out →
        (out.length = batch.length →
          Batcher.dispatchBatch call batch
            = (batch.zip out).flatMap fun jr =>
                jr.1.2.map fun w => (w, Except.ok jr.2))
        ∧ (out.length ≠ batch.length →
          Batcher.dispatchBatch call batch
            = batch.flatMap fun j => j.2.map fun w =>
                (w, Except.error Batcher.BatchError.InvalidOutputLength)))
    ∧ (∀ e, call (batch.map Prod.fst) = .error e →
        Batcher.dispatchBatch call batch
          = batch.flatMap fun j => j.2.map fun w =>
              (w, Except.error (Batcher.BatchError.Web3Error e)))
    ∧ (∀ (out : List Batcher.OrderState) (i : Nat) (job : Batcher.Job)
          (r : Batcher.OrderState) (w : Batcher.Waiter),
        call (batch.map Prod.fst) = .ok out →
        out.length = batch.length → batch[i]? = some job → out[i]? = some r →
        w ∈ job.2 → (w, Except.ok r) ∈ Batcher.dispatchBatch call batch) := by
  have hfb : ∀ out, call (batch.map Prod.fst) = .ok out →
      Batcher.fetch_batch_state call (batch.map Prod.fst)
        = if out.length = batch.length then .ok out
          else .error .InvalidOutputLength := by
    intro out hout
    simp only [Batcher.fetch_batch_state, hout, List.length_map]
  refine ⟨?_, ?_, ?_, ?_⟩
  · cases hcall : call (batch.map Prod.fst) with
    | error e =>
      rw [Batcher.dispatchBatch]
      simp only [Batcher.fetch_batch_state, hcall]
      exact Batcher.deliver_error_length batch _
    | ok out =>
      rw [Batcher.dispatchBatch, hfb out hcall]
      by_cases hlen : out.length = batch.length
      · rw [if_pos hlen]
        exact Batcher.deliver_ok_length batch out hlen
      · rw [if_neg hlen]
        exact Batcher.deliver_error_length batch _
  · intro out hout
    constructor
    · intro hlen
      rw [Batcher.dispatchBatch, hfb out hout, if_pos hlen]
      rfl
    · intro hlen
      rw [Batcher.dispatchBatch, hfb out hout, if_neg hlen]
      rfl
  · intro e hout
    rw [Batcher.dispatchBatch]
    simp only [Batcher.fetch_batch_state, hout]
    rfl
  · intro out i job r w hout hlen hj hr hw
    rw [Batcher.dispatchBatch, hfb out hout, if_pos hlen]
    have hmem : (job, r) ∈ batch.zip out :=
      Batcher.mem_zip_of_getElem batch out i job r hj hr
    simp only [Batcher.deliver]
    exact List.mem_flatMap.mpr ⟨(job, r), hmem, List.mem_map.mpr ⟨w, hw, rfl⟩⟩
